import Mathlib

/-! Box-filter downscaling and the batch worker loop of `res_openmp.c`.

A shallow embedding of `downscale` and `main` from `src/res_openmp.c`.

* C `int` values are Lean integers; every `int` operation is checked against the 32-bit
  range, and an operation that leaves the range (signed overflow, which C leaves undefined)
  makes the computation fault.
* Memory accesses are checked: a read or write outside the buffer makes the computation
  fault.
* `malloc` is an oracle that says, for a requested size, whether the allocation succeeds.
* The JPEG codec (`readJPEG`, `writeJPEG`) and the directory iterator are external
  collaborators: decoding is a function from a path to an optional image, and calls are
  recorded in a trace of events.
-/

namespace ResOpenmp

/-! ## Machine integers and memory -/

/-- One `unsigned char` of a pixel buffer. -/
abbrev UChar := Fin 256

/-- Smallest value of a C `int` (32 bit). -/
def INT_MIN : Int := -2147483648

/-- Largest value of a C `int` (32 bit). -/
def INT_MAX : Int := 2147483647

/-- Result of an `int` expression whose exact value is `x`: defined only inside the `int` range. -/
def chk (x : Int) : Option Int :=
  if INT_MIN ≤ x ∧ x ≤ INT_MAX then some x else none

/-- Addition `a + b` on `int`. -/
def iadd (a b : Int) : Option Int := chk (a + b)

/-- Multiplication `a * b` on `int`. -/
def imul (a b : Int) : Option Int := chk (a * b)

/-- Division `a / b` on `int`: truncates toward zero, undefined for a zero divisor. -/
def idiv (a b : Int) : Option Int :=
  if b = 0 then none else chk (Int.tdiv a b)

/-- Conversion of an `int` to `unsigned char` on assignment: reduction modulo 256. -/
def toUChar (v : Int) : UChar := ⟨(v % 256).toNat, by omega⟩

/-- Conversion of an `int` to `size_t` (64 bit): reduction modulo `2^64`. -/
def toSizeT (v : Int) : Nat := (v % 18446744073709551616).toNat

/-- Read `data[idx]`, promoted to `int`; faults outside the buffer. -/
def readByte (data : List UChar) (idx : Int) : Option Int :=
  if idx < 0 then none else (data[idx.toNat]?).map (fun b => (b.val : Int))

/-- Write `buf[idx] = v` with `v` an `int`; faults outside the buffer. -/
def writeByte (buf : List UChar) (idx : Int) (v : Int) : Option (List UChar) :=
  if 0 ≤ idx ∧ idx.toNat < buf.length then some (buf.set idx.toNat (toUChar v)) else none

/-- Loop `for (int i = 0; i < n; ++i) body`, as the first `n` iterations in order, threading
the state; faults as soon as an iteration faults. -/
def forLoop {σ : Type} (body : Int → σ → Option σ) : Nat → σ → Option σ
  | 0, s => some s
  | n + 1, s => (forLoop body n s).bind (body (n : Int))

/-- Loop `for (int i = 0; i < n; ++i) body` with an `int` bound: no iteration when `n ≤ 0`. -/
def cfor {σ : Type} (n : Int) (body : Int → σ → Option σ) (s : σ) : Option σ :=
  forLoop body n.toNat s

/-! ## The image type and `downscale` -/

/-- The `Image` struct: pixel buffer, width and height. -/
structure Image where
  data : List UChar
  width : Int
  height : Int
deriving DecidableEq, Repr

/-- Outcome of a function returning a pointer: a value, `NULL`, or a fault (undefined
behaviour: signed overflow, division by zero, access outside a buffer). -/
inductive Result (α : Type) where
  | ok (a : α)
  | null
  | fault
deriving DecidableEq, Repr

/-- The three accumulators `sum_r`, `sum_g`, `sum_b`. -/
structure Sums where
  sum_r : Int
  sum_g : Int
  sum_b : Int
deriving DecidableEq, Repr

/-- Index expression `((i * factor + k) * input->width + (j * factor + l)) * 3`. -/
def pixelIndex (width factor i j k l : Int) : Option Int := do
  let a ← imul i factor
  let b ← iadd a k
  let c ← imul b width
  let d ← imul j factor
  let e ← iadd d l
  let g ← iadd c e
  imul g 3

/-- Statement `sum += input->data[base + c]` for one channel (`c = 0` is the plain index). -/
def addChannel (input : Image) (base c sum : Int) : Option Int := do
  let p ← iadd base c
  let v ← readByte input.data p
  iadd sum v

/-- Body of the innermost loop (lines 122-124): the three accumulations for pixel `(k, l)`
of block `(i, j)`. -/
def accumulate (input : Image) (factor i j k l : Int) (s : Sums) : Option Sums := do
  let base ← pixelIndex input.width factor i j k l
  let r ← addChannel input base 0 s.sum_r
  let g ← addChannel input base 1 s.sum_g
  let b ← addChannel input base 2 s.sum_b
  pure ⟨r, g, b⟩

/-- Loops over `k` and `l` (lines 119-126), starting from zero sums. -/
def blockSums (input : Image) (factor i j : Int) : Option Sums :=
  cfor factor (fun k s => cfor factor (fun l t => accumulate input factor i j k l t) s) ⟨0, 0, 0⟩

/-- Index expression `(i * new_width + j) * 3`. -/
def outIndex (new_width i j : Int) : Option Int := do
  let a ← imul i new_width
  let b ← iadd a j
  imul b 3

/-- Statement `output->data[base + c] = sum / (factor * factor)`. -/
def storeChannel (factor base c sum : Int) (out : List UChar) : Option (List UChar) := do
  let p ← iadd base c
  let d ← imul factor factor
  let q ← idiv sum d
  writeByte out p q

/-- Body of the `(i, j)` iteration (lines 119-129). -/
def pixel (input : Image) (factor new_width i j : Int) (out : List UChar) :
    Option (List UChar) := do
  let s ← blockSums input factor i j
  let base ← outIndex new_width i j
  let o1 ← storeChannel factor base 0 s.sum_r out
  let o2 ← storeChannel factor base 1 s.sum_g o1
  storeChannel factor base 2 s.sum_b o2

/-- Loops over `i` and `j` (lines 117-131). The source runs the iterations in parallel
(`omp parallel for collapse(2)`); they are independent (each writes its own three bytes and
reads only the input), so they are run here in index order. -/
def pixelLoops (input : Image) (factor new_width new_height : Int) (out : List UChar) :
    Option (List UChar) :=
  cfor new_height (fun i o => cfor new_width (fun j p => pixel input factor new_width i j p) o) out

/-- Size in bytes of the `Image` struct (a pointer and two `int`s). -/
def sizeofImage : Nat := 16

/-- Function `downscale` (lines 96-134). `malloc n` tells whether an allocation of `n` bytes
succeeds; the fresh buffer is modelled as zero-filled (every byte of it is overwritten). -/
def downscale (malloc : Nat → Bool) (input : Image) (factor : Int) : Result Image :=
  match idiv input.width factor, idiv input.height factor with
  | some new_width, some new_height =>
    if malloc sizeofImage = false then Result.null
    else
      match (imul new_width new_height).bind (fun a => imul a 3) with
      | none => Result.fault
      | some n =>
        if malloc (toSizeT n) = false then Result.null
        else
          match pixelLoops input factor new_width new_height
              (List.replicate (toSizeT n) 0) with
          | some buf => Result.ok ⟨buf, new_width, new_height⟩
          | none => Result.fault
  | _, _ => Result.fault

/-- Allocator that never fails. -/
def mallocAlways : Nat → Bool := fun _ => true

/-! ## The worker loop and `main` -/

/-- A C string, as its list of characters (without the terminating NUL). -/
abbrev CStr := List Char

/-- One directory entry as returned by `readdir`: its type tag and its name. -/
structure Dirent where
  d_type : Nat
  d_name : CStr
deriving DecidableEq, Repr

/-- Type tag of a regular file. -/
def DT_REG : Nat := 8

/-- Call `snprintf(buf, size, "%s/%s", folder, name)`: the joined path, cut to the `size - 1`
characters that fit in the buffer before the terminating NUL. -/
def snprintfPath (size : Nat) (folder name : CStr) : CStr :=
  (folder ++ '/' :: name).take (size - 1)

/-- The external collaborators of `main`: `atoi`, `opendir` (the entries `readdir` will
yield, in order, or `none` when the directory cannot be opened), the decoder `readJPEG`
(`none` is a `NULL` return) and the allocator. -/
structure Env where
  atoi : CStr → Int
  opendir : CStr → Option (List Dirent)
  readJPEG : CStr → Option Image
  malloc : Nat → Bool

/-- Observable calls made by a run, in order. -/
inductive Event where
  | readdir (ent : Option Dirent)
  | readJPEG (path : CStr)
  | writeJPEG (path : CStr) (image : Image)
  | printTime
deriving DecidableEq, Repr

/-- Body of the worker loop for one claimed entry (lines 164-189): the calls it makes, and
whether the loop goes on (`false` when `downscale` faults). -/
def processEntry (env : Env) (input_folder output_folder : CStr) (scale_factor : Int)
    (ent : Dirent) : List Event × Bool :=
  if ent.d_type = DT_REG then
    let input_path := snprintfPath 257 input_folder ent.d_name
    match env.readJPEG input_path with
    | none => ([Event.readJPEG input_path], true)
    | some input_image =>
      match downscale env.malloc input_image scale_factor with
      | Result.null => ([Event.readJPEG input_path], true)
      | Result.fault => ([Event.readJPEG input_path], false)
      | Result.ok output_image =>
        let output_path := snprintfPath 257 output_folder ent.d_name
        ([Event.readJPEG input_path, Event.writeJPEG output_path output_image], true)
  else ([], true)

/-- The `while (1)` loop of one worker (lines 158-190) over the entries `readdir` still has
to yield: the trace of calls, and whether the loop reached its `break`. -/
def workerLoop (env : Env) (input_folder output_folder : CStr) (scale_factor : Int) :
    List Dirent → List Event × Bool
  | [] => ([Event.readdir none], true)
  | ent :: rest =>
    match processEntry env input_folder output_folder scale_factor ent with
    | (evs, true) =>
      let r := workerLoop env input_folder output_folder scale_factor rest
      (Event.readdir (some ent) :: (evs ++ r.1), r.2)
    | (evs, false) => (Event.readdir (some ent) :: evs, false)

/-- Where a worker stands in its loop. -/
inductive Phase where
  | claiming
  | holding (cell : Nat)
  | encoding (cell : Nat) (output_image : Image)
  | done
  | crashed
deriving DecidableEq, Repr

/-- The shared stream, the phase of every worker, and the calls made so far, each with the
worker that made it. -/
structure Pool where
  pending : List Dirent
  buf : List Dirent
  off : Nat
  phases : List Phase
  trace : List (Nat × Event)
deriving DecidableEq, Repr

/-- One step of worker `w`.
* `claiming`: the critical section, `ent = readdir(dir)`; the buffer is refilled when
  exhausted, and the worker leaves the loop on `NULL`.
* `holding`: lines 164-178, reading `ent->d_type` and `ent->d_name` through the pointer,
  then decoding and downscaling.
* `encoding`: lines 180-188, reading `ent->d_name` through the pointer again for the output
  path, then encoding. -/
def poolStep (env : Env) (input_folder output_folder : CStr) (scale_factor : Int) (cap : Nat)
    (w : Nat) (st : Pool) : Pool :=
  match st.phases[w]? with
  | some Phase.claiming =>
    if st.off < st.buf.length then
      ⟨st.pending, st.buf, st.off + 1, st.phases.set w (Phase.holding st.off),
        st.trace ++ [(w, Event.readdir st.buf[st.off]?)]⟩
    else
      match st.pending.take cap with
      | [] =>
        ⟨st.pending, st.buf, st.off, st.phases.set w Phase.done,
          st.trace ++ [(w, Event.readdir none)]⟩
      | e :: es =>
        ⟨st.pending.drop cap, e :: es, 1, st.phases.set w (Phase.holding 0),
          st.trace ++ [(w, Event.readdir (some e))]⟩
  | some (Phase.holding cell) =>
    match st.buf[cell]? with
    | none => ⟨st.pending, st.buf, st.off, st.phases.set w Phase.crashed, st.trace⟩
    | some ent =>
      if ent.d_type = DT_REG then
        let input_path := snprintfPath 257 input_folder ent.d_name
        match env.readJPEG input_path with
        | none =>
          ⟨st.pending, st.buf, st.off, st.phases.set w Phase.claiming,
            st.trace ++ [(w, Event.readJPEG input_path)]⟩
        | some input_image =>
          match downscale env.malloc input_image scale_factor with
          | Result.null =>
            ⟨st.pending, st.buf, st.off, st.phases.set w Phase.claiming,
              st.trace ++ [(w, Event.readJPEG input_path)]⟩
          | Result.fault =>
            ⟨st.pending, st.buf, st.off, st.phases.set w Phase.crashed,
              st.trace ++ [(w, Event.readJPEG input_path)]⟩
          | Result.ok output_image =>
            ⟨st.pending, st.buf, st.off, st.phases.set w (Phase.encoding cell output_image),
              st.trace ++ [(w, Event.readJPEG input_path)]⟩
      else ⟨st.pending, st.buf, st.off, st.phases.set w Phase.claiming, st.trace⟩
  | some (Phase.encoding cell output_image) =>
    match st.buf[cell]? with
    | none => ⟨st.pending, st.buf, st.off, st.phases.set w Phase.crashed, st.trace⟩
    | some ent =>
      ⟨st.pending, st.buf, st.off, st.phases.set w Phase.claiming,
        st.trace ++ [(w, Event.writeJPEG (snprintfPath 257 output_folder ent.d_name)
          output_image)]⟩
  | _ => st

/-- The pool after the workers took steps in the order given by the schedule. -/
def runSchedule (env : Env) (input_folder output_folder : CStr) (scale_factor : Int) (cap : Nat)
    (schedule : List Nat) (st : Pool) : Pool :=
  schedule.foldl (fun s w => poolStep env input_folder output_folder scale_factor cap w s) st

/-- Start of the parallel region: nothing read yet, every worker about to claim. -/
def poolInit (entries : List Dirent) (workers : Nat) : Pool :=
  ⟨entries, [], 0, List.replicate workers Phase.claiming, []⟩

/-! ## Reading a trace -/

/-- The paths passed to `readJPEG` in a trace, in order. -/
def decodeCalls (tr : List Event) : List CStr :=
  tr.filterMap (fun ev => match ev with
    | Event.readJPEG path => some path
    | _ => none)

/-- The arguments passed to `writeJPEG` in a trace, in order. -/
def encodeCalls (tr : List Event) : List (CStr × Image) :=
  tr.filterMap (fun ev => match ev with
    | Event.writeJPEG path image => some (path, image)
    | _ => none)

/-- The entry can be processed without undefined behaviour: if it decodes, `downscale` of the
decoded image does not fault. -/
def faultFree (env : Env) (input_folder : CStr) (scale_factor : Int) (ent : Dirent) : Bool :=
  match env.readJPEG (snprintfPath 257 input_folder ent.d_name) with
  | some img => decide (downscale env.malloc img scale_factor ≠ Result.fault)
  | none => true

/-- An image that `downscale` can address: `int` dimensions that are not negative and a
buffer of exactly `width * height * 3` bytes, at most `INT_MAX`. -/
def validImage (img : Image) : Prop :=
  0 ≤ img.width ∧ img.width ≤ INT_MAX ∧ 0 ≤ img.height ∧ img.height ≤ INT_MAX
    ∧ (img.data.length : Int) = img.width * img.height * 3
    ∧ img.width * img.height * 3 ≤ INT_MAX

/-! ## Specification-level quantities -/

/-- Byte of channel `c` of the pixel at row `r` and column `x` of a buffer of width `W`
(zero when the buffer is too short). -/
def pixelAt (data : List UChar) (W r x c : Nat) : Nat :=
  (data.getD ((r * W + x) * 3 + c) 0).val

/-- Sum of channel `c` over the first `n` columns of row `k` of block `(i, j)`. -/
def rowSum (data : List UChar) (W f i j c k n : Nat) : Nat :=
  ((List.range n).map (fun l => pixelAt data W (i * f + k) (j * f + l) c)).sum

/-- Sum of channel `c` over the first `m` rows of block `(i, j)`. -/
def blockSumTo (data : List UChar) (W f i j c m : Nat) : Nat :=
  ((List.range m).map (fun k => rowSum data W f i j c k f)).sum

/-- Sum of the input bytes of channel `c` over rows `[i*f, i*f+f)` and columns
`[j*f, j*f+f)`. -/
def blockSum (data : List UChar) (W f i j c : Nat) : Nat :=
  blockSumTo data W f i j c f

/-- Byte stored for channel `c` of output pixel `(i, j)`: the truncated block mean. -/
def meanByte (data : List UChar) (W f i j c : Nat) : UChar :=
  toUChar ((blockSum data W f i j c / (f * f) : Nat) : Int)

/-! ## Test inputs -/

/-- An `n` by `n` image whose bytes are all 255. -/
def whiteImage (n : Nat) : Image := ⟨List.replicate (n * n * 3) 255, (n : Int), (n : Int)⟩

/-- A 2 by 2 image whose red channel holds 10, 20, 30, 40. -/
def block2 : List UChar := [10, 0, 0, 20, 0, 0, 30, 0, 0, 40, 0, 0]

/-- A 5 by 5 image with every byte equal to 7. -/
def plain5 : List UChar := List.replicate 75 7

/-- The image `plain5` with every byte of row 4 and of column 4 replaced by 99. -/
def edged5 : List UChar :=
  (List.range 75).map (fun p => if p / 15 = 4 ∨ p / 3 % 5 = 4 then 99 else 7)

/-- A directory with a sub-directory entry, two decodable files and one corrupt file. -/
def demoEntries : List Dirent :=
  [⟨4, ".".toList⟩, ⟨DT_REG, "a.jpg".toList⟩, ⟨DT_REG, "bad.jpg".toList⟩,
    ⟨DT_REG, "b.jpg".toList⟩]

/-- An environment in which `in/a.jpg` and `in/b.jpg` decode and no other path does. -/
def demoEnv : Env :=
  ⟨fun _ => 2, fun _ => some demoEntries,
    fun path =>
      if path = "in/a.jpg".toList then some ⟨block2, 2, 2⟩
      else if path = "in/b.jpg".toList then some ⟨plain5, 5, 5⟩
      else none,
    mallocAlways⟩

/-- An environment whose directory holds the single file `a.jpg`, a 1 by 1 image. -/
def tinyEnv : Env :=
  ⟨fun _ => 2, fun _ => some [⟨DT_REG, "a.jpg".toList⟩], fun _ => some ⟨[1, 2, 3], 1, 1⟩,
    mallocAlways⟩

/-- An input folder name of 252 characters. -/
def longFolder : CStr := List.replicate 252 'd'

/-- A directory of three regular files. -/
def threeFiles : List Dirent :=
  [⟨DT_REG, "a.jpg".toList⟩, ⟨DT_REG, "b.jpg".toList⟩, ⟨DT_REG, "c.jpg".toList⟩]

/-- An environment in which `in/a.jpg`, `in/b.jpg`, `in/c.jpg` decode to 1 by 1 images with
red value 1, 2, 3. -/
def threeEnv : Env :=
  ⟨fun _ => 1, fun _ => some threeFiles,
    fun path =>
      if path = "in/a.jpg".toList then some ⟨[1, 0, 0], 1, 1⟩
      else if path = "in/b.jpg".toList then some ⟨[2, 0, 0], 1, 1⟩
      else if path = "in/c.jpg".toList then some ⟨[3, 0, 0], 1, 1⟩
      else none,
    mallocAlways⟩

/-- A schedule of two workers: worker 0 claims and decodes `a.jpg`; worker 1 then handles
`b.jpg` completely and claims `c.jpg`, which refills the buffer; only then worker 0 builds
its output path. -/
def raceSchedule : List Nat := [0, 0, 1, 1, 1, 1, 0, 1, 1, 0, 1]

/-! ## Loops -/

theorem forLoop_total {σ : Type} (body : Int → σ → Option σ) (P : Nat → σ → Prop)
    (n : Nat) (s : σ) (h0 : P 0 s)
    (hstep : ∀ m t, m < n → P m t → ∃ u, body (m : Int) t = some u ∧ P (m + 1) u) :
    ∃ t, forLoop body n s = some t ∧ P n t := by
  induction n with
  | zero => exact ⟨s, rfl, h0⟩
  | succ n ih =>
    obtain ⟨t, ht, hP⟩ := ih (fun m t hm hp => hstep m t (Nat.lt_succ_of_lt hm) hp)
    obtain ⟨u, hu, hQ⟩ := hstep n t (Nat.lt_succ_self n) hP
    exact ⟨u, by simp [forLoop, ht, hu], hQ⟩

theorem forLoop_post {σ : Type} (body : Int → σ → Option σ) (P : Nat → σ → Prop)
    (n : Nat) (s : σ) (h0 : P 0 s)
    (hstep : ∀ m t u, m < n → P m t → body (m : Int) t = some u → P (m + 1) u) :
    ∀ t, forLoop body n s = some t → P n t := by
  induction n with
  | zero =>
    intro t ht
    simp only [forLoop, Option.some.injEq] at ht
    exact ht ▸ h0
  | succ n ih =>
    intro t ht
    simp only [forLoop] at ht
    cases hm : forLoop body n s with
    | none => simp [hm] at ht
    | some u =>
      rw [hm] at ht
      exact hstep n u t (Nat.lt_succ_self n)
        (ih (fun m a b hlt => hstep m a b (Nat.lt_succ_of_lt hlt)) u hm) ht

theorem forLoop_congr {σ : Type} (b1 b2 : Int → σ → Option σ) (n : Nat) (s : σ)
    (h : ∀ m, m < n → ∀ t, b1 (m : Int) t = b2 (m : Int) t) :
    forLoop b1 n s = forLoop b2 n s := by
  induction n with
  | zero => rfl
  | succ n ih =>
    simp only [forLoop]
    rw [ih (fun m hm t => h m (Nat.lt_succ_of_lt hm) t)]
    cases forLoop b2 n s with
    | none => rfl
    | some u => exact h n (Nat.lt_succ_self n) u

theorem forLoop_none {σ : Type} (body : Int → σ → Option σ) (m n : Nat) (s : σ)
    (hm : m < n) (h : ∀ t, body (m : Int) t = none) : forLoop body n s = none := by
  induction n with
  | zero => omega
  | succ n ih =>
    simp only [forLoop]
    rcases Nat.lt_succ_iff_lt_or_eq.mp hm with hlt | heq
    · rw [ih hlt]; rfl
    · subst heq
      cases forLoop body m s with
      | none => rfl
      | some u => exact h u

/-! ## Checked arithmetic -/

theorem chk_of_range (x : Int) (h1 : -2147483648 ≤ x) (h2 : x ≤ 2147483647) :
    chk x = some x := by
  simp [chk, INT_MIN, INT_MAX, h1, h2]

theorem chk_eq_some {x y : Int} (h : chk x = some y) :
    y = x ∧ -2147483648 ≤ x ∧ x ≤ 2147483647 := by
  unfold chk INT_MIN INT_MAX at h
  split at h
  · rename_i hr
    simp only [Option.some.injEq] at h
    exact ⟨h.symm, hr.1, hr.2⟩
  · simp at h

theorem imul_nat (a b : Nat) (h : a * b ≤ 2147483647) :
    imul (a : Int) (b : Int) = some ((a * b : Nat) : Int) := by
  unfold imul
  rw [← Nat.cast_mul]
  exact chk_of_range _ (by omega) (by exact_mod_cast h)

theorem iadd_nat (a b : Nat) (h : a + b ≤ 2147483647) :
    iadd (a : Int) (b : Int) = some ((a + b : Nat) : Int) := by
  unfold iadd
  rw [← Nat.cast_add]
  exact chk_of_range _ (by omega) (by exact_mod_cast h)

theorem imul_eq_some {a b y : Int} (h : imul a b = some y) :
    y = a * b ∧ -2147483648 ≤ a * b ∧ a * b ≤ 2147483647 := chk_eq_some h

theorem iadd_eq_some {a b y : Int} (h : iadd a b = some y) :
    y = a + b ∧ -2147483648 ≤ a + b ∧ a + b ≤ 2147483647 := chk_eq_some h

theorem idiv_nat (a b : Nat) (hb : 0 < b) (h : a ≤ 2147483647) :
    idiv (a : Int) (b : Int) = some ((a / b : Nat) : Int) := by
  unfold idiv
  have hb0 : (b : Int) ≠ 0 := by omega
  rw [if_neg hb0, ← Int.ofNat_tdiv]
  have h1 : a / b ≤ 2147483647 := le_trans (Nat.div_le_self a b) h
  have h2 : (0 : Int) ≤ ((a / b : Nat) : Int) := Int.ofNat_nonneg _
  have h3 : ((a / b : Nat) : Int) ≤ 2147483647 := by exact_mod_cast h1
  exact chk_of_range _ (le_trans (by decide) h2) h3

theorem readByte_nat (data : List UChar) (n : Nat) :
    readByte data (n : Int) = (data[n]?).map (fun b => (b.val : Int)) := by
  unfold readByte
  rw [if_neg (by omega)]
  simp

/-! ## Index arithmetic -/

theorem block_coord_lt (H f i k : Nat) (hi : i < H / f) (hk : k < f) : i * f + k < H := by
  have h1 : (i + 1) * f ≤ H / f * f := Nat.mul_le_mul_right f hi
  have h2 : H / f * f ≤ H := Nat.div_mul_le_self H f
  have h3 : (i + 1) * f = i * f + f := by ring
  omega

theorem flat_index_lt (W H r x c : Nat) (hr : r < H) (hx : x < W) (hc : c < 3) :
    (r * W + x) * 3 + c < W * H * 3 := by
  have h1 : (r + 1) * W ≤ H * W := Nat.mul_le_mul_right W hr
  have h2 : (r + 1) * W = r * W + W := by ring
  have h3 : W * H = H * W := Nat.mul_comm W H
  omega

theorem pixelIndex_nat (W H f i j k l : Nat) (hfit : W * H * 3 ≤ 2147483647)
    (hi : i < H / f) (hj : j < W / f) (hk : k < f) (hl : l < f) :
    pixelIndex (W : Int) (f : Int) (i : Int) (j : Int) (k : Int) (l : Int)
      = some ((((i * f + k) * W + (j * f + l)) * 3 : Nat) : Int) := by
  have hr : i * f + k < H := block_coord_lt H f i k hi hk
  have hx : j * f + l < W := block_coord_lt W f j l hj hl
  have hflat := flat_index_lt W H (i * f + k) (j * f + l) 0 hr hx (by omega)
  have hH : H ≤ W * H := Nat.le_mul_of_pos_left H (by omega)
  have hW : W ≤ W * H := Nat.le_mul_of_pos_right W (by omega)
  have hrW : (i * f + k) * W ≤ (i * f + k) * W + (j * f + l) := Nat.le_add_right _ _
  unfold pixelIndex
  rw [imul_nat i f (by omega)]
  simp only [Option.bind_eq_bind, Option.some_bind]
  rw [iadd_nat (i * f) k (by omega)]
  simp only [Option.some_bind]
  rw [imul_nat (i * f + k) W (by omega)]
  simp only [Option.some_bind]
  rw [imul_nat j f (by omega)]
  simp only [Option.some_bind]
  rw [iadd_nat (j * f) l (by omega)]
  simp only [Option.some_bind]
  rw [iadd_nat ((i * f + k) * W) (j * f + l) (by omega)]
  simp only [Option.some_bind]
  exact imul_nat _ 3 (by omega)

theorem pixelIndex_eq_some {W f i j k l y : Int} (h : pixelIndex W f i j k l = some y) :
    y = ((i * f + k) * W + (j * f + l)) * 3 := by
  unfold pixelIndex at h
  simp only [Option.bind_eq_bind, Option.bind_eq_some] at h
  obtain ⟨a, ha, b, hb, c, hc, d, hd, e, he, g, hg, hy⟩ := h
  rw [(imul_eq_some hy).1, (iadd_eq_some hg).1, (imul_eq_some hc).1, (iadd_eq_some hb).1,
    (imul_eq_some ha).1, (iadd_eq_some he).1, (imul_eq_some hd).1]

/-! ## The accumulation loops -/

theorem pixelAt_le (data : List UChar) (W r x c : Nat) : pixelAt data W r x c ≤ 255 := by
  unfold pixelAt
  have := (data.getD ((r * W + x) * 3 + c) 0).isLt
  omega

theorem rowSum_succ (data : List UChar) (W f i j c k n : Nat) :
    rowSum data W f i j c k (n + 1)
      = rowSum data W f i j c k n + pixelAt data W (i * f + k) (j * f + n) c := by
  simp [rowSum, List.range_succ]

theorem blockSumTo_succ (data : List UChar) (W f i j c m : Nat) :
    blockSumTo data W f i j c (m + 1)
      = blockSumTo data W f i j c m + rowSum data W f i j c m f := by
  simp [blockSumTo, List.range_succ]

theorem rowSum_le (data : List UChar) (W f i j c k n : Nat) :
    rowSum data W f i j c k n ≤ 255 * n := by
  induction n with
  | zero => simp [rowSum]
  | succ n ih =>
    rw [rowSum_succ]
    have := pixelAt_le data W (i * f + k) (j * f + n) c
    omega

theorem blockSumTo_le (data : List UChar) (W f i j c m : Nat) :
    blockSumTo data W f i j c m ≤ 255 * (m * f) := by
  induction m with
  | zero => simp [blockSumTo]
  | succ m ih =>
    rw [blockSumTo_succ]
    have h1 := rowSum_le data W f i j c m f
    have h2 : (m + 1) * f = m * f + f := by ring
    omega

theorem blockSum_le (data : List UChar) (W f i j c : Nat) :
    blockSum data W f i j c ≤ 255 * (f * f) := blockSumTo_le data W f i j c f

theorem addChannel_px (data : List UChar) (Wi Hi : Int) (W r x c s : Nat)
    (hlt : (r * W + x) * 3 + c < data.length) (hfit : (r * W + x) * 3 + c ≤ 2147483647)
    (hs : s + 255 ≤ 2147483647) :
    addChannel ⟨data, Wi, Hi⟩ (((r * W + x) * 3 : Nat) : Int) (c : Int) (s : Int)
      = some ((s + pixelAt data W r x c : Nat) : Int) := by
  have hv := (data[(r * W + x) * 3 + c]).isLt
  have hget : data.getD ((r * W + x) * 3 + c) 0 = data[(r * W + x) * 3 + c] := by
    simp [List.getD_eq_getElem?_getD, List.getElem?_eq_getElem hlt]
  simp only [addChannel, Option.bind_eq_bind, Option.bind_eq_some]
  refine ⟨_, iadd_nat ((r * W + x) * 3) c hfit, (data[(r * W + x) * 3 + c].val : Int), ?_, ?_⟩
  · rw [readByte_nat, List.getElem?_eq_getElem hlt]
    rfl
  · rw [iadd_nat s (data[(r * W + x) * 3 + c]).val (by omega)]
    simp only [pixelAt, hget]

theorem accumulate_nat (data : List UChar) (W H f i j k l a b c : Nat)
    (hlen : data.length = W * H * 3) (hfit : W * H * 3 ≤ 2147483647)
    (hi : i < H / f) (hj : j < W / f) (hk : k < f) (hl : l < f)
    (ha : a + 255 ≤ 2147483647) (hb : b + 255 ≤ 2147483647) (hc : c + 255 ≤ 2147483647) :
    accumulate ⟨data, (W : Int), (H : Int)⟩ (f : Int) (i : Int) (j : Int) (k : Int) (l : Int)
        ⟨(a : Int), (b : Int), (c : Int)⟩
      = some ⟨((a + pixelAt data W (i * f + k) (j * f + l) 0 : Nat) : Int),
          ((b + pixelAt data W (i * f + k) (j * f + l) 1 : Nat) : Int),
          ((c + pixelAt data W (i * f + k) (j * f + l) 2 : Nat) : Int)⟩ := by
  have hr : i * f + k < H := block_coord_lt H f i k hi hk
  have hx : j * f + l < W := block_coord_lt W f j l hj hl
  have h0 := flat_index_lt W H (i * f + k) (j * f + l) 0 hr hx (by omega)
  have h1 := flat_index_lt W H (i * f + k) (j * f + l) 1 hr hx (by omega)
  have h2 := flat_index_lt W H (i * f + k) (j * f + l) 2 hr hx (by omega)
  have hp := pixelIndex_nat W H f i j k l hfit hi hj hk hl
  have e0 := addChannel_px data W H W (i * f + k) (j * f + l) 0 a
    (by omega) (by omega) ha
  have e1 := addChannel_px data W H W (i * f + k) (j * f + l) 1 b
    (by omega) (by omega) hb
  have e2 := addChannel_px data W H W (i * f + k) (j * f + l) 2 c
    (by omega) (by omega) hc
  simp only [Nat.cast_zero, Nat.cast_one, Nat.cast_ofNat] at e0 e1 e2
  simp only [accumulate, Option.bind_eq_bind, Option.bind_eq_some]
  exact ⟨_, hp, _, e0, _, e1, _, e2, rfl⟩

theorem cfor_nat {σ : Type} (n : Nat) (body : Int → σ → Option σ) (s : σ) :
    cfor (n : Int) body s = forLoop body n s := by
  simp [cfor]

/-- The loop over `l` adds one row of the block to each accumulator. -/
theorem rowLoop_nat (data : List UChar) (W H f i j k a b c : Nat)
    (hlen : data.length = W * H * 3) (hfit : W * H * 3 ≤ 2147483647)
    (hi : i < H / f) (hj : j < W / f) (hk : k < f)
    (ha : a + 255 * f ≤ 2147483647) (hb : b + 255 * f ≤ 2147483647)
    (hc : c + 255 * f ≤ 2147483647) :
    forLoop (fun l t => accumulate ⟨data, (W : Int), (H : Int)⟩ (f : Int) (i : Int) (j : Int)
        (k : Int) l t) f ⟨(a : Int), (b : Int), (c : Int)⟩
      = some ⟨((a + rowSum data W f i j 0 k f : Nat) : Int),
          ((b + rowSum data W f i j 1 k f : Nat) : Int),
          ((c + rowSum data W f i j 2 k f : Nat) : Int)⟩ := by
  obtain ⟨t, ht, hP⟩ := forLoop_total
    (fun l t => accumulate ⟨data, (W : Int), (H : Int)⟩ (f : Int) (i : Int) (j : Int)
        (k : Int) l t)
    (fun n t => t = ⟨((a + rowSum data W f i j 0 k n : Nat) : Int),
          ((b + rowSum data W f i j 1 k n : Nat) : Int),
          ((c + rowSum data W f i j 2 k n : Nat) : Int)⟩)
    f ⟨(a : Int), (b : Int), (c : Int)⟩ (by simp [rowSum])
    (by
      intro m t hm ht
      have r0 := rowSum_le data W f i j 0 k m
      have r1 := rowSum_le data W f i j 1 k m
      have r2 := rowSum_le data W f i j 2 k m
      refine ⟨_, ?_, rfl⟩
      subst ht
      simp only [rowSum_succ, ← Nat.add_assoc]
      exact accumulate_nat data W H f i j k m _ _ _ hlen hfit hi hj hk hm
        (by omega) (by omega) (by omega))
  rw [ht, hP]

/-- The loops over `k` and `l` compute the three exact block sums, as long as a block of
all-255 bytes fits an `int`. -/
theorem blockSums_nat (data : List UChar) (W H f i j : Nat)
    (hlen : data.length = W * H * 3) (hfit : W * H * 3 ≤ 2147483647)
    (hi : i < H / f) (hj : j < W / f) (hsum : 255 * (f * f) ≤ 2147483647) :
    blockSums ⟨data, (W : Int), (H : Int)⟩ (f : Int) (i : Int) (j : Int)
      = some ⟨(blockSum data W f i j 0 : Nat), (blockSum data W f i j 1 : Nat),
          (blockSum data W f i j 2 : Nat)⟩ := by
  obtain ⟨t, ht, hP⟩ := forLoop_total
    (fun k s => forLoop (fun l t => accumulate ⟨data, (W : Int), (H : Int)⟩ (f : Int)
        (i : Int) (j : Int) k l t) f s)
    (fun m t => t = ⟨(blockSumTo data W f i j 0 m : Nat), (blockSumTo data W f i j 1 m : Nat),
          (blockSumTo data W f i j 2 m : Nat)⟩)
    f ⟨0, 0, 0⟩ (by simp [blockSumTo])
    (by
      intro m t hm ht
      have b0 := blockSumTo_le data W f i j 0 m
      have b1 := blockSumTo_le data W f i j 1 m
      have b2 := blockSumTo_le data W f i j 2 m
      have hmf : m * f + f ≤ f * f := by
        have : (m + 1) * f ≤ f * f := Nat.mul_le_mul_right f hm
        have h2 : (m + 1) * f = m * f + f := by ring
        omega
      refine ⟨_, ?_, rfl⟩
      subst ht
      simp only [blockSumTo_succ]
      exact rowLoop_nat data W H f i j m _ _ _ hlen hfit hi hj hm
        (by omega) (by omega) (by omega))
  simp only [blockSums, cfor_nat]
  rw [ht, hP]
  rfl

/-! ## Storing a pixel -/

theorem outIndex_nat (nw nh i j : Nat) (hfit : nw * nh * 3 ≤ 2147483647)
    (hi : i < nh) (hj : j < nw) :
    outIndex (nw : Int) (i : Int) (j : Int) = some (((i * nw + j) * 3 : Nat) : Int) := by
  have hflat := flat_index_lt nw nh i j 0 hi hj (by omega)
  have h1 : i * nw ≤ i * nw + j := Nat.le_add_right _ _
  simp only [outIndex, Option.bind_eq_bind, Option.bind_eq_some]
  exact ⟨_, imul_nat i nw (by omega), _, iadd_nat (i * nw) j (by omega),
    imul_nat (i * nw + j) 3 (by omega)⟩

theorem writeByte_nat (buf : List UChar) (p : Nat) (v : Int) (hp : p < buf.length) :
    writeByte buf (p : Int) v = some (buf.set p (toUChar v)) := by
  unfold writeByte
  rw [if_pos ⟨by omega, by simpa using hp⟩]
  simp

theorem storeChannel_nat (f base c sum : Nat) (out : List UChar) (hf : 0 < f)
    (hff : f * f ≤ 2147483647) (hsum : sum ≤ 2147483647) (hp : base + c < out.length)
    (hfit : base + c ≤ 2147483647) :
    storeChannel (f : Int) (base : Int) (c : Int) (sum : Int) out
      = some (out.set (base + c) (toUChar ((sum / (f * f) : Nat) : Int))) := by
  simp only [storeChannel, Option.bind_eq_bind, Option.bind_eq_some]
  exact ⟨_, iadd_nat base c hfit, _, imul_nat f f hff, _,
    idiv_nat sum (f * f) (Nat.mul_pos hf hf) hsum, writeByte_nat out (base + c) _ hp⟩

theorem pixel_nat (data : List UChar) (W H f i j : Nat) (out : List UChar)
    (hlen : data.length = W * H * 3) (hfit : W * H * 3 ≤ 2147483647)
    (hf : 0 < f) (hsum : 255 * (f * f) ≤ 2147483647)
    (hi : i < H / f) (hj : j < W / f) (hout : out.length = W / f * (H / f) * 3) :
    pixel ⟨data, (W : Int), (H : Int)⟩ (f : Int) ((W / f : Nat) : Int) (i : Int) (j : Int) out
      = some (((out.set ((i * (W / f) + j) * 3 + 0) (meanByte data W f i j 0)).set
          ((i * (W / f) + j) * 3 + 1) (meanByte data W f i j 1)).set
          ((i * (W / f) + j) * 3 + 2) (meanByte data W f i j 2)) := by
  have hle : W / f * (H / f) ≤ W * H :=
    Nat.mul_le_mul (Nat.div_le_self W f) (Nat.div_le_self H f)
  have hflat := flat_index_lt (W / f) (H / f) i j 2 hi hj (by omega)
  have s0 := blockSum_le data W f i j 0
  have s1 := blockSum_le data W f i j 1
  have s2 := blockSum_le data W f i j 2
  have e0 := storeChannel_nat f ((i * (W / f) + j) * 3) 0 (blockSum data W f i j 0) out hf
    (by omega) (by omega) (by omega) (by omega)
  have e1 := storeChannel_nat f ((i * (W / f) + j) * 3) 1 (blockSum data W f i j 1)
    (out.set ((i * (W / f) + j) * 3 + 0) (meanByte data W f i j 0)) hf
    (by omega) (by omega) (by simp only [List.length_set]; omega) (by omega)
  have e2 := storeChannel_nat f ((i * (W / f) + j) * 3) 2 (blockSum data W f i j 2)
    ((out.set ((i * (W / f) + j) * 3 + 0) (meanByte data W f i j 0)).set
      ((i * (W / f) + j) * 3 + 1) (meanByte data W f i j 1)) hf
    (by omega) (by omega) (by simp only [List.length_set]; omega) (by omega)
  simp only [Nat.cast_zero, Nat.cast_one, Nat.cast_ofNat] at e0 e1 e2
  simp only [pixel, Option.bind_eq_bind, Option.bind_eq_some]
  exact ⟨_, blockSums_nat data W H f i j hlen hfit hi hj hsum, _,
    outIndex_nat (W / f) (H / f) i j (by omega) hi hj, _, e0, _, e1, e2⟩

/-! ## The pixel loops -/

theorem getElem?_three_sets (out : List UChar) (q p : Nat) (v0 v1 v2 : UChar)
    (hq : q * 3 + 2 < out.length) :
    (((out.set (q * 3 + 0) v0).set (q * 3 + 1) v1).set (q * 3 + 2) v2)[p]?
      = if p = q * 3 + 2 then some v2 else if p = q * 3 + 1 then some v1
        else if p = q * 3 + 0 then some v0 else out[p]? := by
  have hq1 : q * 3 + 1 < out.length := by omega
  have hq0 : q * 3 + 0 < out.length := by omega
  simp only [List.getElem?_set, List.length_set]
  by_cases h2 : p = q * 3 + 2
  · subst h2
    simp only [if_pos hq, if_true]
  · have h2' : ¬ q * 3 + 2 = p := fun h => h2 h.symm
    rw [if_neg h2', if_neg h2]
    by_cases h1 : p = q * 3 + 1
    · subst h1
      simp only [if_pos hq1, if_true]
    · have h1' : ¬ q * 3 + 1 = p := fun h => h1 h.symm
      rw [if_neg h1', if_neg h1]
      by_cases h0 : p = q * 3 + 0
      · subst h0
        simp only [if_pos hq0, if_true]
      · have h0' : ¬ q * 3 + 0 = p := fun h => h0 h.symm
        rw [if_neg h0', if_neg h0]

/-- One row of output pixels: the loop over `j` fills row `i` with the block means and
leaves the rows before it untouched. -/
theorem pixelRow_nat (data : List UChar) (W H f i : Nat) (out : List UChar)
    (hlen : data.length = W * H * 3) (hfit : W * H * 3 ≤ 2147483647)
    (hf : 0 < f) (hsum : 255 * (f * f) ≤ 2147483647)
    (hi : i < H / f) (hout : out.length = W / f * (H / f) * 3) :
    ∃ t, forLoop (fun j p => pixel ⟨data, (W : Int), (H : Int)⟩ (f : Int)
          ((W / f : Nat) : Int) (i : Int) j p) (W / f) out = some t
      ∧ t.length = W / f * (H / f) * 3
      ∧ (∀ j c, j < W / f → c < 3 →
          t[(i * (W / f) + j) * 3 + c]? = some (meanByte data W f i j c))
      ∧ (∀ p, p < i * (W / f) * 3 → t[p]? = out[p]?) := by
  obtain ⟨t, ht, hP⟩ := forLoop_total
    (fun j p => pixel ⟨data, (W : Int), (H : Int)⟩ (f : Int) ((W / f : Nat) : Int) (i : Int) j p)
    (fun n t => t.length = W / f * (H / f) * 3
      ∧ (∀ j c, j < n → c < 3 →
          t[(i * (W / f) + j) * 3 + c]? = some (meanByte data W f i j c))
      ∧ (∀ p, p < i * (W / f) * 3 → t[p]? = out[p]?))
    (W / f) out ⟨hout, by intro j c hj; omega, fun _ _ => rfl⟩
    (by
      intro n t hn ⟨hl, hrow, hold⟩
      have hflat := flat_index_lt (W / f) (H / f) i n 2 hi hn (by omega)
      refine ⟨_, pixel_nat data W H f i n t hlen hfit hf hsum hi hn hl, ?_, ?_, ?_⟩
      · simp only [List.length_set]
        exact hl
      · intro j c hj hc
        rw [getElem?_three_sets t (i * (W / f) + n) _ _ _ _ (by omega)]
        rcases Nat.lt_succ_iff_lt_or_eq.mp hj with hlt | heq
        · rw [if_neg (by omega), if_neg (by omega), if_neg (by omega)]
          exact hrow j c hlt hc
        · subst heq
          obtain rfl | rfl | rfl : c = 0 ∨ c = 1 ∨ c = 2 := by omega
          · rw [if_neg (by omega), if_neg (by omega), if_pos rfl]
          · rw [if_neg (by omega), if_pos rfl]
          · rw [if_pos rfl]
      · intro p hp
        rw [getElem?_three_sets t (i * (W / f) + n) _ _ _ _ (by omega)]
        have : i * (W / f) * 3 ≤ (i * (W / f) + n) * 3 := by omega
        rw [if_neg (by omega), if_neg (by omega), if_neg (by omega)]
        exact hold p hp)
  exact ⟨t, ht, hP⟩

/-- The two pixel loops fill the whole output buffer with the block means. -/
theorem pixelLoops_nat (data : List UChar) (W H f : Nat) (out : List UChar)
    (hlen : data.length = W * H * 3) (hfit : W * H * 3 ≤ 2147483647)
    (hf : 0 < f) (hsum : 255 * (f * f) ≤ 2147483647)
    (hout : out.length = W / f * (H / f) * 3) :
    ∃ t, pixelLoops ⟨data, (W : Int), (H : Int)⟩ (f : Int) ((W / f : Nat) : Int)
          ((H / f : Nat) : Int) out = some t
      ∧ t.length = W / f * (H / f) * 3
      ∧ (∀ i j c, i < H / f → j < W / f → c < 3 →
          t[(i * (W / f) + j) * 3 + c]? = some (meanByte data W f i j c)) := by
  obtain ⟨t, ht, hP⟩ := forLoop_total
    (fun i o => forLoop (fun j p => pixel ⟨data, (W : Int), (H : Int)⟩ (f : Int)
      ((W / f : Nat) : Int) i j p) (W / f) o)
    (fun m t => t.length = W / f * (H / f) * 3
      ∧ (∀ i j c, i < m → j < W / f → c < 3 →
          t[(i * (W / f) + j) * 3 + c]? = some (meanByte data W f i j c)))
    (H / f) out ⟨hout, by intro i j c hi; omega⟩
    (by
      intro m t hm ⟨hl, hdone⟩
      obtain ⟨u, hu, hul, hrow, hold⟩ := pixelRow_nat data W H f m t hlen hfit hf hsum hm hl
      refine ⟨u, hu, hul, ?_⟩
      intro i j c hi hj hc
      rcases Nat.lt_succ_iff_lt_or_eq.mp hi with hlt | heq
      · have h1 : (i + 1) * (W / f) ≤ m * (W / f) := Nat.mul_le_mul_right _ hlt
        have h2 : (i + 1) * (W / f) = i * (W / f) + W / f := by ring
        rw [hold _ (by omega)]
        exact hdone i j c hlt hj hc
      · subst heq
        exact hrow j c hj hc)
  refine ⟨t, ?_, hP⟩
  simp only [pixelLoops, cfor_nat]
  exact ht

theorem toSizeT_nat (n : Nat) (h : n ≤ 2147483647) : toSizeT (n : Int) = n := by
  unfold toSizeT
  omega

theorem outSize_nat (nw nh : Nat) (h : nw * nh * 3 ≤ 2147483647) :
    (imul (nw : Int) (nh : Int)).bind (fun a => imul a 3)
      = some ((nw * nh * 3 : Nat) : Int) := by
  simp only [Option.bind_eq_some]
  exact ⟨_, imul_nat nw nh (by omega), imul_nat (nw * nh) 3 h⟩

/-- Totality and functional behaviour of `downscale` on a buffer that `int` indices can
address and a factor whose all-255 block sum fits an `int`. -/
theorem downscale_nat (malloc : Nat → Bool) (data : List UChar) (W H f : Nat)
    (hlen : data.length = W * H * 3) (hW : W ≤ 2147483647) (hH : H ≤ 2147483647)
    (hfit : W * H * 3 ≤ 2147483647) (hf : 0 < f) (hsum : 255 * (f * f) ≤ 2147483647)
    (hm1 : malloc sizeofImage = true) (hm2 : malloc (W / f * (H / f) * 3) = true) :
    ∃ buf, downscale malloc ⟨data, (W : Int), (H : Int)⟩ (f : Int)
          = Result.ok ⟨buf, ((W / f : Nat) : Int), ((H / f : Nat) : Int)⟩
      ∧ buf.length = W / f * (H / f) * 3
      ∧ (∀ i j c, i < H / f → j < W / f → c < 3 →
          buf[(i * (W / f) + j) * 3 + c]? = some (meanByte data W f i j c)) := by
  have hle : W / f * (H / f) ≤ W * H :=
    Nat.mul_le_mul (Nat.div_le_self W f) (Nat.div_le_self H f)
  have hn : W / f * (H / f) * 3 ≤ 2147483647 := by omega
  obtain ⟨t, ht, hl, hP⟩ := pixelLoops_nat data W H f
    (List.replicate (W / f * (H / f) * 3) 0) hlen hfit hf hsum (by simp)
  refine ⟨t, ?_, hl, hP⟩
  simp only [downscale, idiv_nat W f hf hW, idiv_nat H f hf hH, hm1, outSize_nat _ _ hn,
    toSizeT_nat _ hn, hm2, ht]
  simp

/-! ## What a successful accumulation returned -/

theorem addChannel_eq_some (data : List UChar) (Wi Hi : Int) (W r x c : Nat) (sum t : Int)
    (h : addChannel ⟨data, Wi, Hi⟩ (((r * W + x) * 3 : Nat) : Int) (c : Int) sum = some t) :
    t = sum + (pixelAt data W r x c : Nat) ∧ t ≤ 2147483647 := by
  simp only [addChannel, Option.bind_eq_bind, Option.bind_eq_some] at h
  obtain ⟨p, hp, v, hv, ht⟩ := h
  have hp1 := (iadd_eq_some hp).1
  have hp2 : p = (((r * W + x) * 3 + c : Nat) : Int) := by
    rw [hp1]
    push_cast
    rfl
  rw [hp2, readByte_nat] at hv
  have hv2 : v = (pixelAt data W r x c : Nat) := by
    unfold pixelAt
    rw [List.getD_eq_getElem?_getD]
    cases hd : data[(r * W + x) * 3 + c]? with
    | none => simp [hd] at hv
    | some b =>
      simp only [hd, Option.map_some', Option.some.injEq] at hv
      simp [← hv]
  obtain ⟨h1, _, h3⟩ := iadd_eq_some ht
  rw [hv2] at h1 h3
  exact ⟨h1, by rw [h1]; exact h3⟩

theorem accumulate_eq_some (data : List UChar) (Hi : Int) (W f i j k l : Nat) (s t : Sums)
    (h : accumulate ⟨data, (W : Int), Hi⟩ (f : Int) (i : Int) (j : Int) (k : Int) (l : Int) s
      = some t) :
    t.sum_r = s.sum_r + (pixelAt data W (i * f + k) (j * f + l) 0 : Nat)
      ∧ t.sum_r ≤ 2147483647 := by
  simp only [accumulate, Option.bind_eq_bind, Option.bind_eq_some] at h
  obtain ⟨base, hbase, r, hr, g, _, b, _, ht⟩ := h
  have hb := pixelIndex_eq_some hbase
  have hb2 : base = ((((i * f + k) * W + (j * f + l)) * 3 : Nat) : Int) := by
    rw [hb]
    push_cast
    rfl
  rw [hb2] at hr
  have hr2 := addChannel_eq_some data (W : Int) Hi W (i * f + k) (j * f + l) 0 s.sum_r r
    (by simpa using hr)
  simp only [pure, Option.some.injEq] at ht
  rw [← ht]
  exact hr2

/-- When the accumulation loops return, `sum_r` is the exact block sum of the red channel
and lies in the `int` range. -/
theorem blockSums_eq_some (data : List UChar) (Hi : Int) (W f i j : Nat) (t : Sums)
    (hf : 0 < f)
    (h : blockSums ⟨data, (W : Int), Hi⟩ (f : Int) (i : Int) (j : Int) = some t) :
    t.sum_r = (blockSum data W f i j 0 : Nat) ∧ t.sum_r ≤ 2147483647 := by
  simp only [blockSums, cfor_nat] at h
  have hrow : ∀ (k : Nat) (s u : Sums),
      forLoop (fun l t => accumulate ⟨data, (W : Int), Hi⟩ (f : Int) (i : Int) (j : Int)
        (k : Int) l t) f s = some u →
      u.sum_r = s.sum_r + (rowSum data W f i j 0 k f : Nat) ∧ u.sum_r ≤ 2147483647 := by
    intro k s u hu
    have := forLoop_post
      (fun l t => accumulate ⟨data, (W : Int), Hi⟩ (f : Int) (i : Int) (j : Int) (k : Int) l t)
      (fun n t => t.sum_r = s.sum_r + (rowSum data W f i j 0 k n : Nat)
        ∧ (0 < n → t.sum_r ≤ 2147483647))
      f s ⟨by simp [rowSum], by intro h0; omega⟩
      (by
        intro m a b _ ⟨ha, _⟩ hab
        obtain ⟨h1, h2⟩ := accumulate_eq_some data Hi W f i j k m a b hab
        refine ⟨?_, fun _ => h2⟩
        rw [h1, ha, rowSum_succ]
        push_cast
        ring)
      u hu
    exact ⟨this.1, this.2 hf⟩
  have := forLoop_post
    (fun k s => forLoop (fun l t => accumulate ⟨data, (W : Int), Hi⟩ (f : Int) (i : Int)
      (j : Int) k l t) f s)
    (fun m t => t.sum_r = (blockSumTo data W f i j 0 m : Nat)
      ∧ (0 < m → t.sum_r ≤ 2147483647))
    f ⟨0, 0, 0⟩ ⟨by simp [blockSumTo], by intro h0; omega⟩
    (by
      intro m a b _ ⟨ha, _⟩ hab
      obtain ⟨h1, h2⟩ := hrow m a b hab
      refine ⟨?_, fun _ => h2⟩
      rw [h1, ha, blockSumTo_succ]
      push_cast
      ring)
    t h
  exact ⟨this.1, this.2 hf⟩

/-- Block sum of a buffer of `f * f` pixels all equal to `b` in every channel. -/
theorem blockSum_const (f c : Nat) (b : UChar) (hc : c < 3) :
    blockSum (List.replicate (f * f * 3) b) f f 0 0 c = f * f * b.val := by
  have hpx : ∀ k l, k < f → l < f →
      pixelAt (List.replicate (f * f * 3) b) f (0 * f + k) (0 * f + l) c = b.val := by
    intro k l hk hl
    have := flat_index_lt f f k l c hk hl hc
    unfold pixelAt
    rw [List.getD_eq_getElem?_getD, List.getElem?_replicate]
    simp only [Nat.zero_mul, Nat.zero_add]
    rw [if_pos this]
    rfl
  have hrow : ∀ k n, k < f → n ≤ f →
      rowSum (List.replicate (f * f * 3) b) f f 0 0 c k n = n * b.val := by
    intro k n hk
    induction n with
    | zero => intro _; simp [rowSum]
    | succ n ih =>
      intro hn
      rw [rowSum_succ, ih (by omega), hpx k n hk (by omega)]
      ring
  have hblk : ∀ m, m ≤ f →
      blockSumTo (List.replicate (f * f * 3) b) f f 0 0 c m = m * f * b.val := by
    intro m
    induction m with
    | zero => intro _; simp [blockSumTo]
    | succ m ih =>
      intro hm
      rw [blockSumTo_succ, ih (by omega), hrow m f (by omega) (le_refl f)]
      ring
  exact hblk f (le_refl f)

/-! ## Overflow of the accumulators -/

theorem blockSums_white_none (f : Nat) (hf : 2147483647 < 255 * (f * f)) :
    blockSums (whiteImage f) (f : Int) 0 0 = none := by
  have hpos : 0 < f := by
    rcases Nat.eq_zero_or_pos f with h | h
    · subst h; omega
    · exact h
  cases h : blockSums (whiteImage f) (f : Int) 0 0 with
  | none => rfl
  | some t =>
    have h2 : blockSums ⟨List.replicate (f * f * 3) 255, (f : Int), (f : Int)⟩ (f : Int)
        ((0 : Nat) : Int) ((0 : Nat) : Int) = some t := h
    obtain ⟨e1, e2⟩ := blockSums_eq_some _ _ f f 0 0 t hpos h2
    rw [blockSum_const f 0 255 (by omega)] at e1
    have hv : ((255 : UChar).val) = 255 := rfl
    rw [hv] at e1
    have e3 : ((f * f * 255 : Nat) : Int) ≤ 2147483647 := e1 ▸ e2
    have e4 : f * f * 255 ≤ 2147483647 := by exact_mod_cast e3
    omega

theorem pixelLoops_none_of_first (img : Image) (f : Int) (nw nh : Nat) (out : List UChar)
    (hnw : 0 < nw) (hnh : 0 < nh) (h : blockSums img f 0 0 = none) :
    pixelLoops img f (nw : Int) (nh : Int) out = none := by
  simp only [pixelLoops, cfor_nat]
  apply forLoop_none _ 0 nh out hnh
  intro t
  apply forLoop_none _ 0 nw t hnw
  intro u
  simp only [pixel, Nat.cast_zero, h, Option.bind_eq_bind, Option.none_bind]

/-- On a white `f` by `f` image whose block sum leaves the `int` range, `downscale` by `f`
overflows `sum_r` and faults. -/
theorem downscale_white_fault (f : Nat) (hf : 2147483647 < 255 * (f * f))
    (hf2 : f ≤ 2147483647) :
    downscale mallocAlways (whiteImage f) (f : Int) = Result.fault := by
  have hpos : 0 < f := by
    rcases Nat.eq_zero_or_pos f with h | h
    · subst h; omega
    · exact h
  have h1 : f / f = 1 := Nat.div_self hpos
  have hl := pixelLoops_none_of_first (whiteImage f) (f : Int) 1 1
    (List.replicate 3 0) (by omega) (by omega) (blockSums_white_none f hf)
  have hd : idiv (whiteImage f).width (f : Int) = some ((1 : Nat) : Int) := by
    have := idiv_nat f f hpos hf2
    rw [h1] at this
    exact this
  have hd2 : idiv (whiteImage f).height (f : Int) = some ((1 : Nat) : Int) := hd
  have hsz := outSize_nat 1 1 (by omega)
  have hts := toSizeT_nat (1 * 1 * 3) (by omega)
  simp only [downscale, hd, hd2, hsz, hts, mallocAlways, hl]
  simp

/-! ## Shape of the result -/

theorem writeByte_length (buf o : List UChar) (p v : Int) (h : writeByte buf p v = some o) :
    o.length = buf.length := by
  unfold writeByte at h
  split at h
  · simp only [Option.some.injEq] at h
    rw [← h, List.length_set]
  · simp at h

theorem storeChannel_length (f base c sum : Int) (out o : List UChar)
    (h : storeChannel f base c sum out = some o) : o.length = out.length := by
  simp only [storeChannel, Option.bind_eq_bind, Option.bind_eq_some] at h
  obtain ⟨p, _, d, _, q, _, hw⟩ := h
  exact writeByte_length out o p q hw

theorem pixel_length (img : Image) (f nw i j : Int) (out o : List UChar)
    (h : pixel img f nw i j out = some o) : o.length = out.length := by
  simp only [pixel, Option.bind_eq_bind, Option.bind_eq_some] at h
  obtain ⟨s, _, base, _, o1, h1, o2, h2, h3⟩ := h
  rw [storeChannel_length _ _ _ _ _ _ h3, storeChannel_length _ _ _ _ _ _ h2,
    storeChannel_length _ _ _ _ _ _ h1]

theorem pixelLoops_length (img : Image) (f nw nh : Int) (out o : List UChar)
    (h : pixelLoops img f nw nh out = some o) : o.length = out.length := by
  unfold pixelLoops cfor at h
  refine forLoop_post _ (fun _ t => t.length = out.length) _ out rfl ?_ o h
  intro m t u _ ht hu
  simp only [cfor] at hu
  rw [← ht]
  refine forLoop_post _ (fun _ w => w.length = t.length) _ t rfl ?_ u hu
  intro n a b _ ha hb
  rw [← ha]
  exact pixel_length _ _ _ _ _ _ _ hb

theorem idiv_eq_some_of_nonneg {a b q : Int} (ha : 0 ≤ a) (hb : 1 ≤ b)
    (h : idiv a b = some q) : q = a / b ∧ 0 ≤ q := by
  unfold idiv at h
  rw [if_neg (by omega)] at h
  have h1 := (chk_eq_some h).1
  rw [Int.tdiv_eq_ediv ha (by omega)] at h1
  exact ⟨h1, h1 ▸ Int.ediv_nonneg ha (by omega)⟩

theorem toSizeT_of_range (n : Int) (h0 : 0 ≤ n) (h1 : n ≤ 2147483647) :
    ((toSizeT n : Nat) : Int) = n := by
  unfold toSizeT
  omega

/-- Unfolding of `downscale` once the two divisions are known. -/
theorem downscale_of_idiv (malloc : Nat → Bool) (input : Image) (f nw nh : Int)
    (hw : idiv input.width f = some nw) (hh : idiv input.height f = some nh) :
    downscale malloc input f =
      if malloc sizeofImage = false then Result.null
      else
        match (imul nw nh).bind (fun a => imul a 3) with
        | none => Result.fault
        | some n =>
          if malloc (toSizeT n) = false then Result.null
          else
            match pixelLoops input f nw nh (List.replicate (toSizeT n) 0) with
            | some buf => Result.ok ⟨buf, nw, nh⟩
            | none => Result.fault := by
  unfold downscale
  rw [hw, hh]

theorem downscale_of_idiv_none (malloc : Nat → Bool) (input : Image) (f : Int)
    (h : idiv input.width f = none ∨ idiv input.height f = none) :
    downscale malloc input f = Result.fault := by
  unfold downscale
  rcases h with h | h
  · rw [h]
  · rw [h]
    cases idiv input.width f <;> rfl

theorem downscale_ok_shape (malloc : Nat → Bool) (input out : Image) (f : Int)
    (hW : 0 ≤ input.width) (hH : 0 ≤ input.height) (hf : 1 ≤ f)
    (h : downscale malloc input f = Result.ok out) :
    out.width = input.width / f ∧ out.height = input.height / f
      ∧ (out.data.length : Int) = out.width * out.height * 3 := by
  cases hw : idiv input.width f with
  | none => rw [downscale_of_idiv_none malloc input f (Or.inl hw)] at h; cases h
  | some nw =>
    cases hh : idiv input.height f with
    | none => rw [downscale_of_idiv_none malloc input f (Or.inr hh)] at h; cases h
    | some nh =>
      obtain ⟨ew, hnw⟩ := idiv_eq_some_of_nonneg hW hf hw
      obtain ⟨eh, hnh⟩ := idiv_eq_some_of_nonneg hH hf hh
      rw [downscale_of_idiv malloc input f nw nh hw hh] at h
      by_cases hm1 : malloc sizeofImage = false
      · rw [if_pos hm1] at h; cases h
      · rw [if_neg hm1] at h
        cases hn : (imul nw nh).bind (fun a => imul a 3) with
        | none => rw [hn] at h; cases h
        | some n =>
          rw [hn] at h
          by_cases hm2 : malloc (toSizeT n) = false
          · simp only [if_pos hm2] at h; cases h
          · simp only [if_neg hm2] at h
            cases hbuf : pixelLoops input f nw nh (List.replicate (toSizeT n) 0) with
            | none => rw [hbuf] at h; cases h
            | some buf =>
              rw [hbuf] at h
              simp only [Result.ok.injEq] at h
              simp only [Option.bind_eq_some] at hn
              obtain ⟨a, ha, hn3⟩ := hn
              obtain ⟨e1, _, _⟩ := imul_eq_some ha
              obtain ⟨e2, _, h3⟩ := imul_eq_some hn3
              have hpos : 0 ≤ nw * nh := Int.mul_nonneg hnw hnh
              have hlen := pixelLoops_length _ _ _ _ _ _ hbuf
              rw [List.length_replicate] at hlen
              have hn0 : 0 ≤ n := by rw [e2, e1]; omega
              have hn1 : n ≤ 2147483647 := by rw [e2]; exact h3
              have hsz := toSizeT_of_range n hn0 hn1
              rw [← h]
              refine ⟨ew, eh, ?_⟩
              show ((buf.length : Nat) : Int) = nw * nh * 3
              rw [hlen, hsz, e2, e1]

/-! ## Dependence on the input buffer -/

theorem addChannel_agree (a b : List UChar) (Wi Hi : Int) (N c : Nat) (s : Int)
    (hag : a[N + c]? = b[N + c]?) :
    addChannel ⟨a, Wi, Hi⟩ (N : Int) (c : Int) s = addChannel ⟨b, Wi, Hi⟩ (N : Int) (c : Int) s := by
  simp only [addChannel, Option.bind_eq_bind]
  cases hp : iadd (N : Int) (c : Int) with
  | none => rfl
  | some p =>
    have hp2 : p = ((N + c : Nat) : Int) := by
      rw [(iadd_eq_some hp).1]
      push_cast
      rfl
    simp only [Option.some_bind]
    rw [hp2, readByte_nat, readByte_nat, hag]

theorem accumulate_agree (a b : List UChar) (W H f i j k l : Nat) (s : Sums)
    (hag : ∀ c, c < 3 →
      a[((i * f + k) * W + (j * f + l)) * 3 + c]? = b[((i * f + k) * W + (j * f + l)) * 3 + c]?) :
    accumulate ⟨a, (W : Int), (H : Int)⟩ (f : Int) (i : Int) (j : Int) (k : Int) (l : Int) s
      = accumulate ⟨b, (W : Int), (H : Int)⟩ (f : Int) (i : Int) (j : Int) (k : Int) (l : Int) s := by
  simp only [accumulate, Option.bind_eq_bind]
  cases hb : pixelIndex (W : Int) (f : Int) (i : Int) (j : Int) (k : Int) (l : Int) with
  | none => rfl
  | some base =>
    have hb2 : base = ((((i * f + k) * W + (j * f + l)) * 3 : Nat) : Int) := by
      rw [pixelIndex_eq_some hb]
      push_cast
      rfl
    have k0 := fun t => addChannel_agree a b (W : Int) (H : Int)
      (((i * f + k) * W + (j * f + l)) * 3) 0 t (hag 0 (by omega))
    have k1 := fun t => addChannel_agree a b (W : Int) (H : Int)
      (((i * f + k) * W + (j * f + l)) * 3) 1 t (hag 1 (by omega))
    have k2 := fun t => addChannel_agree a b (W : Int) (H : Int)
      (((i * f + k) * W + (j * f + l)) * 3) 2 t (hag 2 (by omega))
    simp only [Nat.cast_zero, Nat.cast_one, Nat.cast_ofNat] at k0 k1 k2
    rw [← hb2] at k0 k1 k2
    simp only [Option.some_bind, k0, k1, k2]

theorem pixelLoops_agree (a b : List UChar) (W H f : Nat) (out : List UChar)
    (hag : ∀ r, r < H / f * f → ∀ x, x < W / f * f → ∀ c, c < 3 →
      a[(r * W + x) * 3 + c]? = b[(r * W + x) * 3 + c]?) :
    pixelLoops ⟨a, (W : Int), (H : Int)⟩ (f : Int) ((W / f : Nat) : Int) ((H / f : Nat) : Int) out
      = pixelLoops ⟨b, (W : Int), (H : Int)⟩ (f : Int) ((W / f : Nat) : Int)
          ((H / f : Nat) : Int) out := by
  have hcoord : ∀ (n i k : Nat), i < n / f → k < f → i * f + k < n / f * f := by
    intro n i k hi hk
    have h1 : (i + 1) * f ≤ n / f * f := Nat.mul_le_mul_right f hi
    have h2 : (i + 1) * f = i * f + f := by ring
    omega
  simp only [pixelLoops, cfor_nat]
  apply forLoop_congr
  intro i hi o
  apply forLoop_congr
  intro j hj q
  have hbs : blockSums ⟨a, (W : Int), (H : Int)⟩ (f : Int) (i : Int) (j : Int)
      = blockSums ⟨b, (W : Int), (H : Int)⟩ (f : Int) (i : Int) (j : Int) := by
    simp only [blockSums, cfor_nat]
    apply forLoop_congr
    intro k hk s
    apply forLoop_congr
    intro l hl t
    exact accumulate_agree a b W H f i j k l t
      (fun c hc => hag _ (hcoord H i k hi hk) _ (hcoord W j l hj hl) c hc)
  simp only [pixel, hbs]

/-! ## Index arithmetic of the output buffer -/

theorem toUChar_nat_val (n : Nat) (h : n ≤ 255) : (toUChar (n : Int)).val = n := by
  unfold toUChar
  show ((n : Int) % 256).toNat = n
  omega

theorem mean_le (data : List UChar) (W f i j c : Nat) :
    blockSum data W f i j c / (f * f) ≤ 255 :=
  Nat.div_le_of_le_mul (by
    have := blockSum_le data W f i j c
    omega)

theorem sq_le_of_le_2901 (f : Nat) (hf : f ≤ 2901) : 255 * (f * f) ≤ 2147483647 := by
  have h : f * f ≤ 2901 * 2901 := Nat.mul_le_mul hf hf
  omega

theorem outIndex_inj (nw i j c i' j' c' : Nat) (hj : j < nw) (hj' : j' < nw)
    (hc : c < 3) (hc' : c' < 3)
    (h : (i * nw + j) * 3 + c = (i' * nw + j') * 3 + c') : i = i' ∧ j = j' ∧ c = c' := by
  have hq : i * nw + j = i' * nw + j' := by omega
  have hcc : c = c' := by omega
  have hii : i = i' := by
    rcases Nat.lt_trichotomy i i' with hlt | heq | hgt
    · have h1 : (i + 1) * nw ≤ i' * nw := Nat.mul_le_mul_right nw hlt
      have h2 : (i + 1) * nw = i * nw + nw := by ring
      omega
    · exact heq
    · have h1 : (i' + 1) * nw ≤ i * nw := Nat.mul_le_mul_right nw hgt
      have h2 : (i' + 1) * nw = i' * nw + nw := by ring
      omega
  subst hii
  exact ⟨rfl, by omega, hcc⟩

theorem outIndex_surj (nw nh p : Nat) (hp : p < nw * nh * 3) :
    ∃ i j c, i < nh ∧ j < nw ∧ c < 3 ∧ p = (i * nw + j) * 3 + c := by
  have hnw : 0 < nw := by
    rcases Nat.eq_zero_or_pos nw with h | h
    · subst h; simp at hp
    · exact h
  have hq : p / 3 < nw * nh := by omega
  refine ⟨p / 3 / nw, p / 3 % nw, p % 3, Nat.div_lt_of_lt_mul hq, Nat.mod_lt _ hnw,
    Nat.mod_lt _ (by omega), ?_⟩
  have h1 : p / 3 / nw * nw + p / 3 % nw = p / 3 := by
    rw [Nat.mul_comm]
    exact Nat.div_add_mod (p / 3) nw
  rw [h1]
  omega

/-- On a buffer that `int` indices can address and with `f ≤ 2901`, `downscale` returns an
image or `NULL`, whatever the allocator does. -/
theorem downscale_ne_fault (malloc : Nat → Bool) (data : List UChar) (W H f : Nat)
    (hlen : data.length = W * H * 3) (hW : W ≤ 2147483647) (hH : H ≤ 2147483647)
    (hfit : W * H * 3 ≤ 2147483647) (hf : 1 ≤ f) (hf2 : f ≤ 2901) :
    downscale malloc ⟨data, (W : Int), (H : Int)⟩ (f : Int) ≠ Result.fault := by
  have hle : W / f * (H / f) ≤ W * H :=
    Nat.mul_le_mul (Nat.div_le_self W f) (Nat.div_le_self H f)
  have hn : W / f * (H / f) * 3 ≤ 2147483647 := by omega
  rw [downscale_of_idiv malloc _ _ _ _ (idiv_nat W f hf hW) (idiv_nat H f hf hH)]
  by_cases hm1 : malloc sizeofImage = false
  · rw [if_pos hm1]
    intro h
    cases h
  · rw [if_neg hm1, outSize_nat _ _ hn]
    by_cases hm2 : malloc (toSizeT ((W / f * (H / f) * 3 : Nat) : Int)) = false
    · simp only [if_pos hm2]
      intro h
      cases h
    · simp only [if_neg hm2]
      obtain ⟨t, ht, _, _⟩ := pixelLoops_nat data W H f
        (List.replicate (toSizeT ((W / f * (H / f) * 3 : Nat) : Int)) 0) hlen hfit hf
        (sq_le_of_le_2901 f hf2) (by rw [List.length_replicate, toSizeT_nat _ hn])
      rw [ht]
      intro h
      cases h

/-- A buffer of more than `2^31 - 1` bytes cannot be handled: for a 26755 by 26755 image the
size `new_width * new_height * 3` of the output buffer already overflows with factor 1. -/
theorem downscale_large_buffer_fault :
    downscale mallocAlways ⟨List.replicate (26755 * 26755 * 3) 0, 26755, 26755⟩ 1
      = Result.fault := by
  have hw : idiv (26755 : Int) 1 = some 26755 := by decide
  have hn : (imul (26755 : Int) 26755).bind (fun a => imul a 3) = none := by decide
  rw [downscale_of_idiv mallocAlways _ 1 26755 26755 hw hw, hn]
  rfl

/-! ## Claims about `downscale` -/

/-- C1, as stated, fails: on the white 2902 by 2902 image (a buffer of exactly
`2902 * 2902 * 3` bytes) with factor 2902 the claimed red byte of output pixel `(0, 0)` is
255, but `sum_r` leaves the `int` range and `downscale` faults instead of producing it. -/
theorem downscale_block_average_overflow :
    (whiteImage 2902).data.length = 2902 * 2902 * 3
      ∧ (whiteImage 2902).width = 2902 ∧ (whiteImage 2902).height = 2902
      ∧ blockSum (whiteImage 2902).data 2902 2902 0 0 0 / (2902 * 2902) = 255
      ∧ downscale mallocAlways (whiteImage 2902) 2902 = Result.fault := by
  have hl : (whiteImage 2902).data.length = 2902 * 2902 * 3 := by
    show (List.replicate (2902 * 2902 * 3) (255 : UChar)).length = _
    rw [List.length_replicate]
  have h := blockSum_const 2902 0 255 (by decide)
  have hv : ((255 : UChar).val) = 255 := rfl
  rw [hv] at h
  have h2 : blockSum (whiteImage 2902).data 2902 2902 0 0 0 = 2902 * 2902 * 255 := h
  refine ⟨hl, rfl, rfl, ?_, downscale_white_fault 2902 (by decide) (by decide)⟩
  rw [h2]

/-- C1 (amended): for every image of width `W` and height `H` (both `int`s) whose buffer
holds `W * H * 3` bytes with `W * H * 3 ≤ 2^31 - 1`, every factor `1 ≤ f ≤ 2901`, and
succeeding allocations, `downscale` returns an image in which the byte of channel `c` of
every output pixel `(i, j)`, `i < H / f`, `j < W / f`, is `S / (f * f)` rounded down, `S` being
the sum of the input bytes of channel `c` over rows `[i*f, i*f+f)` and columns
`[j*f, j*f+f)`. -/
theorem downscale_block_average (malloc : Nat → Bool) (data : List UChar) (W H f : Nat)
    (hlen : data.length = W * H * 3) (hW : W ≤ 2147483647) (hH : H ≤ 2147483647)
    (hfit : W * H * 3 ≤ 2147483647) (hf1 : 1 ≤ f) (hf : f ≤ 2901)
    (hm1 : malloc sizeofImage = true) (hm2 : malloc (W / f * (H / f) * 3) = true) :
    ∃ out, downscale malloc ⟨data, (W : Int), (H : Int)⟩ (f : Int) = Result.ok out
      ∧ ∀ i j c, i < H / f → j < W / f → c < 3 →
          (out.data[(i * (W / f) + j) * 3 + c]?).map Fin.val
            = some (blockSum data W f i j c / (f * f)) := by
  obtain ⟨buf, hd, _, hP⟩ := downscale_nat malloc data W H f hlen hW hH hfit hf1
    (sq_le_of_le_2901 f hf) hm1 hm2
  refine ⟨_, hd, ?_⟩
  intro i j c hi hj hc
  show (buf[(i * (W / f) + j) * 3 + c]?).map Fin.val = _
  rw [hP i j c hi hj hc]
  simp only [Option.map_some', meanByte, Option.some.injEq]
  exact toUChar_nat_val _ (mean_le data W f i j c)

/-- C1, witness: the 2 by 2 block 10, 20, 30, 40 with factor 2 gives 25. -/
theorem downscale_block_average_witness :
    ∃ out, downscale mallocAlways ⟨block2, 2, 2⟩ 2 = Result.ok out
      ∧ (out.data[0]?).map Fin.val = some 25 := by
  obtain ⟨out, h, hv⟩ := downscale_block_average mallocAlways block2 2 2 2 (by decide)
    (by decide) (by decide) (by decide) (by decide) (by decide) rfl rfl
  exact ⟨out, h, hv 0 0 0 (by decide) (by decide) (by decide)⟩

/-- The constant-200 4 by 4 image with factor 2 gives a 2 by 2 output of all 200. -/
theorem downscale_constant_200 :
    downscale mallocAlways ⟨List.replicate 48 200, 4, 4⟩ 2
      = Result.ok ⟨List.replicate 12 200, 2, 2⟩ := by
  decide

/-- C2: for every image of width `W ≥ 0` and height `H ≥ 0` and every factor `f ≥ 1`, an
image returned by `downscale` has width `W / f`, height `H / f` (rounded down) and a
buffer of exactly `width * height * 3` bytes; and an image is returned whenever the
input buffer holds `W * H * 3 ≤ 2^31 - 1` bytes, `f ≤ 2901` and the allocations succeed. -/
theorem downscale_output_shape (malloc : Nat → Bool) (data : List UChar) (W H f : Nat)
    (hf : 1 ≤ f) :
    (∀ out, downscale malloc ⟨data, (W : Int), (H : Int)⟩ (f : Int) = Result.ok out →
        out.width = ((W / f : Nat) : Int) ∧ out.height = ((H / f : Nat) : Int)
          ∧ out.data.length = W / f * (H / f) * 3)
      ∧ (data.length = W * H * 3 → W ≤ 2147483647 → H ≤ 2147483647 →
          W * H * 3 ≤ 2147483647 → f ≤ 2901 → malloc sizeofImage = true →
          malloc (W / f * (H / f) * 3) = true →
          ∃ out, downscale malloc ⟨data, (W : Int), (H : Int)⟩ (f : Int) = Result.ok out) := by
  constructor
  · intro out h
    obtain ⟨h1, h2, h3⟩ := downscale_ok_shape malloc ⟨data, (W : Int), (H : Int)⟩ out (f : Int)
      (Int.ofNat_nonneg W) (Int.ofNat_nonneg H) (by exact_mod_cast hf) h
    have e1 : out.width = ((W / f : Nat) : Int) := by rw [h1]; rfl
    have e2 : out.height = ((H / f : Nat) : Int) := by rw [h2]; rfl
    refine ⟨e1, e2, ?_⟩
    rw [e1, e2] at h3
    exact_mod_cast h3
  · intro hlen hW hH hfit hf2 hm1 hm2
    obtain ⟨buf, hd, _, _⟩ := downscale_nat malloc data W H f hlen hW hH hfit hf
      (sq_le_of_le_2901 f hf2) hm1 hm2
    exact ⟨_, hd⟩

/-- C2, witness: a 5 by 5 image downscaled by 2 is returned as a 2 by 2 image of 12 bytes. -/
theorem downscale_output_shape_witness :
    ∃ out, downscale mallocAlways ⟨plain5, 5, 5⟩ 2 = Result.ok out
      ∧ out.width = 2 ∧ out.height = 2 ∧ out.data.length = 12 := by
  have h := downscale_output_shape mallocAlways plain5 5 5 2 (by decide)
  obtain ⟨out, ho⟩ := h.2 (by decide) (by decide) (by decide) (by decide) (by decide) rfl rfl
  exact ⟨out, ho, h.1 out ho⟩

/-- C3: for every factor and every two images of the same width `W` and height `H` that
agree on all bytes of the pixels in rows below `(H / f) * f` and columns below
`(W / f) * f`, `downscale` gives identical results: the trailing rows and columns never
influence the output. -/
theorem downscale_truncation (malloc : Nat → Bool) (a b : List UChar) (W H f : Nat)
    (hag : ∀ r, r < H / f * f → ∀ x, x < W / f * f → ∀ c, c < 3 →
      a[(r * W + x) * 3 + c]? = b[(r * W + x) * 3 + c]?) :
    downscale malloc ⟨a, (W : Int), (H : Int)⟩ (f : Int)
      = downscale malloc ⟨b, (W : Int), (H : Int)⟩ (f : Int) := by
  have hdiv : ∀ (n : Nat) (q : Int), idiv (n : Int) (f : Int) = some q → q = ((n / f : Nat) : Int) := by
    intro n q hq
    unfold idiv at hq
    split at hq
    · cases hq
    · rw [(chk_eq_some hq).1, ← Int.ofNat_tdiv]
  cases hw : idiv (W : Int) (f : Int) with
  | none =>
    rw [downscale_of_idiv_none malloc _ _ (Or.inl hw), downscale_of_idiv_none malloc _ _ (Or.inl hw)]
  | some nw =>
    cases hh : idiv (H : Int) (f : Int) with
    | none =>
      rw [downscale_of_idiv_none malloc _ _ (Or.inr hh),
        downscale_of_idiv_none malloc _ _ (Or.inr hh)]
    | some nh =>
      rw [downscale_of_idiv malloc ⟨a, (W : Int), (H : Int)⟩ _ nw nh hw hh,
        downscale_of_idiv malloc ⟨b, (W : Int), (H : Int)⟩ _ nw nh hw hh]
      have e := fun out => pixelLoops_agree a b W H f out hag
      rw [← hdiv W nw hw, ← hdiv H nh hh] at e
      simp only [e]

/-- C3, witness: two 5 by 5 images that differ in row 4 and column 4 give, with factor 2,
the same 2 by 2 output. -/
theorem downscale_truncation_witness :
    plain5 ≠ edged5
      ∧ downscale mallocAlways ⟨plain5, 5, 5⟩ 2 = downscale mallocAlways ⟨edged5, 5, 5⟩ 2
      ∧ downscale mallocAlways ⟨edged5, 5, 5⟩ 2 = Result.ok ⟨List.replicate 12 7, 2, 2⟩ :=
  ⟨by decide, downscale_truncation mallocAlways plain5 edged5 5 5 2 (by decide), by decide⟩

/-- C9: for every image of width `W`, height `H` with a buffer of exactly `W * H * 3` bytes,
`W * H * 3 ≤ 2^31 - 1`, and every factor `f ≥ 1`: every read index
`((i*f + k)*W + (j*f + l))*3 + c` is computed without overflow, is below `W * H * 3` and the
read succeeds; every write index `(i*(W/f) + j)*3 + c` is computed without overflow, is
below `(W/f) * (H/f) * 3` and the write succeeds; every byte of the output buffer is the
target of exactly one `(i, j, c)`; and `downscale` never faults (for `f ≤ 2901`, where the
accumulators cannot overflow either). -/
theorem downscale_index_safety (data : List UChar) (W H f : Nat)
    (hlen : data.length = W * H * 3) (hfit : W * H * 3 ≤ 2147483647) (hf : 1 ≤ f) :
    (∀ i j k l c : Nat, i < H / f → j < W / f → k < f → l < f → c < 3 →
        pixelIndex (W : Int) (f : Int) (i : Int) (j : Int) (k : Int) (l : Int)
            = some ((((i * f + k) * W + (j * f + l)) * 3 : Nat) : Int)
          ∧ iadd ((((i * f + k) * W + (j * f + l)) * 3 : Nat) : Int) (c : Int)
            = some ((((i * f + k) * W + (j * f + l)) * 3 + c : Nat) : Int)
          ∧ ((i * f + k) * W + (j * f + l)) * 3 + c < W * H * 3
          ∧ (readByte data ((((i * f + k) * W + (j * f + l)) * 3 + c : Nat) : Int)).isSome = true)
      ∧ (∀ i j c : Nat, i < H / f → j < W / f → c < 3 →
        outIndex ((W / f : Nat) : Int) (i : Int) (j : Int)
            = some (((i * (W / f) + j) * 3 : Nat) : Int)
          ∧ iadd (((i * (W / f) + j) * 3 : Nat) : Int) (c : Int)
            = some (((i * (W / f) + j) * 3 + c : Nat) : Int)
          ∧ (i * (W / f) + j) * 3 + c < W / f * (H / f) * 3
          ∧ ∀ (buf : List UChar) (v : Int), buf.length = W / f * (H / f) * 3 →
              (writeByte buf (((i * (W / f) + j) * 3 + c : Nat) : Int) v).isSome = true)
      ∧ (∀ i j c i' j' c' : Nat, j < W / f → j' < W / f → c < 3 → c' < 3 →
          (i * (W / f) + j) * 3 + c = (i' * (W / f) + j') * 3 + c' → i = i' ∧ j = j' ∧ c = c')
      ∧ (∀ p, p < W / f * (H / f) * 3 →
          ∃ i j c, i < H / f ∧ j < W / f ∧ c < 3 ∧ p = (i * (W / f) + j) * 3 + c)
      ∧ (W ≤ 2147483647 → H ≤ 2147483647 → f ≤ 2901 →
          ∀ malloc, downscale malloc ⟨data, (W : Int), (H : Int)⟩ (f : Int) ≠ Result.fault) := by
  have hle : W / f * (H / f) ≤ W * H :=
    Nat.mul_le_mul (Nat.div_le_self W f) (Nat.div_le_self H f)
  have hn : W / f * (H / f) * 3 ≤ 2147483647 := by omega
  refine ⟨?_, ?_, ?_, ?_, ?_⟩
  · intro i j k l c hi hj hk hl hc
    have hr : i * f + k < H := block_coord_lt H f i k hi hk
    have hx : j * f + l < W := block_coord_lt W f j l hj hl
    have hflat := flat_index_lt W H (i * f + k) (j * f + l) c hr hx hc
    refine ⟨pixelIndex_nat W H f i j k l hfit hi hj hk hl, iadd_nat _ c (by omega), hflat, ?_⟩
    rw [readByte_nat, List.getElem?_eq_getElem (by omega)]
    rfl
  · intro i j c hi hj hc
    have hflat := flat_index_lt (W / f) (H / f) i j c hi hj hc
    refine ⟨outIndex_nat (W / f) (H / f) i j hn hi hj, iadd_nat _ c (by omega), hflat, ?_⟩
    intro buf v hbuf
    rw [writeByte_nat buf _ v (by omega)]
    rfl
  · intro i j c i' j' c' hj hj' hc hc' h
    exact outIndex_inj (W / f) i j c i' j' c' hj hj' hc hc' h
  · intro p hp
    exact outIndex_surj (W / f) (H / f) p hp
  · intro hW hH hf2 malloc
    exact downscale_ne_fault malloc data W H f hlen hW hH hfit hf hf2

/-- C9, witness: the 5 by 5 image with factor 2. -/
theorem downscale_index_safety_witness :
    (∀ p, p < 12 → ∃ i j c, i < 2 ∧ j < 2 ∧ c < 3 ∧ p = (i * 2 + j) * 3 + c)
      ∧ downscale mallocAlways ⟨plain5, 5, 5⟩ 2 ≠ Result.fault := by
  have h := downscale_index_safety plain5 5 5 2 (by decide) (by decide) (by decide)
  exact ⟨h.2.2.2.1, h.2.2.2.2 (by decide) (by decide) (by decide) mallocAlways⟩

/-- C10: with `int` 32 bits wide, for every factor `1 ≤ f ≤ 2901` and every block `(i, j)`
of an image (buffer of `W * H * 3 ≤ 2^31 - 1` bytes), the accumulation loops never leave
the `int` range and return the exact sums, `factor * factor` does not overflow, and each
quotient is at most 255 and is stored without truncation. The bound is tight: for
`f = 2902` the all-255 block has exact sum `255 * 2902^2 = 2147509020 > 2^31 - 1` and the
accumulation overflows. -/
theorem accumulator_range (data : List UChar) (W H f i j : Nat)
    (hlen : data.length = W * H * 3) (hfit : W * H * 3 ≤ 2147483647)
    (hf1 : 1 ≤ f) (hf : f ≤ 2901) (hi : i < H / f) (hj : j < W / f) :
    blockSums ⟨data, (W : Int), (H : Int)⟩ (f : Int) (i : Int) (j : Int)
        = some ⟨(blockSum data W f i j 0 : Nat), (blockSum data W f i j 1 : Nat),
            (blockSum data W f i j 2 : Nat)⟩
      ∧ (∀ c, ((blockSum data W f i j c : Nat) : Int) ≤ INT_MAX)
      ∧ imul (f : Int) (f : Int) = some ((f * f : Nat) : Int)
      ∧ ((f * f : Nat) : Int) ≤ INT_MAX
      ∧ (∀ c, idiv ((blockSum data W f i j c : Nat) : Int) ((f * f : Nat) : Int)
            = some ((blockSum data W f i j c / (f * f) : Nat) : Int)
          ∧ blockSum data W f i j c / (f * f) ≤ 255
          ∧ (toUChar ((blockSum data W f i j c / (f * f) : Nat) : Int)).val
              = blockSum data W f i j c / (f * f))
      ∧ (255 * (2902 * 2902) = 2147509020 ∧ INT_MAX < 2147509020
          ∧ blockSum (whiteImage 2902).data 2902 2902 0 0 0 = 2147509020
          ∧ blockSums (whiteImage 2902) 2902 0 0 = none) := by
  have hsum := sq_le_of_le_2901 f hf
  have hb : ∀ c, blockSum data W f i j c ≤ 2147483647 := fun c => by
    have := blockSum_le data W f i j c
    omega
  have hc := blockSum_const 2902 0 255 (by decide)
  have hv : ((255 : UChar).val) = 255 := rfl
  rw [hv] at hc
  have hc2 : blockSum (whiteImage 2902).data 2902 2902 0 0 0 = 2902 * 2902 * 255 := hc
  refine ⟨blockSums_nat data W H f i j hlen hfit hi hj hsum, ?_, imul_nat f f (by omega), ?_,
    ?_, by decide, by decide, ?_, blockSums_white_none 2902 (by decide)⟩
  · intro c
    have := hb c
    unfold INT_MAX
    exact_mod_cast this
  · unfold INT_MAX
    have : f * f ≤ 2147483647 := by omega
    exact_mod_cast this
  · intro c
    exact ⟨idiv_nat _ _ (Nat.mul_pos hf1 hf1) (hb c), mean_le data W f i j c,
      toUChar_nat_val _ (mean_le data W f i j c)⟩
  · rw [hc2]

/-- C10, witness: the 2 by 2 block 10, 20, 30, 40 with factor 2 has sums 100, 0, 0. -/
theorem accumulator_range_witness :
    blockSums ⟨block2, 2, 2⟩ 2 0 0 = some ⟨100, 0, 0⟩ :=
  (accumulator_range block2 2 2 2 0 0 (by decide) (by decide) (by decide) (by decide)
    (by decide) (by decide)).1

/-! ## Claims about the worker loop and `main` -/

/-- C4, evaluated on the code: a 1 by 1 image downscaled by 2 gives the zero-area image, and
the worker passes that image to `writeJPEG` before claiming the next entry. -/
theorem zero_area_result_is_encoded :
    downscale mallocAlways ⟨[1, 2, 3], 1, 1⟩ 2 = Result.ok ⟨[], 0, 0⟩
      ∧ (workerLoop tinyEnv "in".toList "out".toList 2 [⟨DT_REG, "a.jpg".toList⟩]).1
        = [Event.readdir (some ⟨DT_REG, "a.jpg".toList⟩), Event.readJPEG "in/a.jpg".toList,
            Event.writeJPEG "out/a.jpg".toList ⟨[], 0, 0⟩, Event.readdir none] := by
  decide

/-- When the decoder only returns valid images and `1 ≤ f ≤ 2901`, every entry is processed
without a fault. -/
theorem faultFree_of_valid (env : Env) (inF : CStr) (f : Int) (ent : Dirent)
    (hf : 1 ≤ f) (hf2 : f ≤ 2901)
    (hv : ∀ path img, env.readJPEG path = some img → validImage img) :
    faultFree env inF f ent = true := by
  unfold faultFree
  cases hr : env.readJPEG (snprintfPath 257 inF ent.d_name) with
  | none => rfl
  | some img =>
    obtain ⟨h1, h2, h3, h4, h5, h6⟩ := hv _ img hr
    unfold INT_MAX at h2 h4 h6
    obtain ⟨data, width, height⟩ := img
    simp only at h1 h2 h3 h4 h5 h6
    obtain ⟨W, rfl⟩ := Int.eq_ofNat_of_zero_le h1
    obtain ⟨H, rfl⟩ := Int.eq_ofNat_of_zero_le h3
    obtain ⟨n, rfl⟩ := Int.eq_ofNat_of_zero_le (le_trans (by decide) hf)
    simp only [decide_eq_true_eq]
    exact downscale_ne_fault env.malloc data W H n (by exact_mod_cast h5)
      (by exact_mod_cast h2) (by exact_mod_cast h4) (by exact_mod_cast h6)
      (by exact_mod_cast hf) (by exact_mod_cast hf2)

theorem snprintfPath_fits (folder name : CStr) (h : folder.length + 1 + name.length ≤ 256) :
    snprintfPath 257 folder name = folder ++ '/' :: name := by
  unfold snprintfPath
  apply List.take_of_length_le
  simp only [List.length_append, List.length_cons]
  omega

set_option maxRecDepth 100000 in
/-- C6, as stated, fails: with an input folder of 252 characters and the entry `a.jpg`, the
worker decodes from the path cut to 256 characters, which ends in `/a.j`, not from
`input_dir + "/" + name`. -/
theorem path_is_truncated :
    decodeCalls (processEntry tinyEnv longFolder "out".toList 2 ⟨DT_REG, "a.jpg".toList⟩).1
        = [longFolder ++ "/a.j".toList]
      ∧ longFolder ++ "/a.j".toList ≠ longFolder ++ '/' :: "a.jpg".toList := by
  decide

/-- C6 (amended): for every regular entry, the worker decodes from exactly
`input_dir + "/" + name` whenever that string has at most 256 characters, and every
`writeJPEG` call it makes for the entry goes to exactly `output_dir + "/" + name` whenever
that string has at most 256 characters. -/
theorem path_mirrors_name (env : Env) (inF outF : CStr) (f : Int) (ent : Dirent)
    (hreg : ent.d_type = DT_REG) :
    (inF.length + 1 + ent.d_name.length ≤ 256 →
        decodeCalls (processEntry env inF outF f ent).1 = [inF ++ '/' :: ent.d_name])
      ∧ (outF.length + 1 + ent.d_name.length ≤ 256 →
        ∀ call ∈ encodeCalls (processEntry env inF outF f ent).1,
          call.1 = outF ++ '/' :: ent.d_name) := by
  constructor
  · intro hin
    rw [← snprintfPath_fits inF ent.d_name hin]
    cases hr : env.readJPEG (snprintfPath 257 inF ent.d_name) with
    | none => simp [processEntry, hreg, hr, decodeCalls]
    | some img =>
      cases hd : downscale env.malloc img f <;>
        simp [processEntry, hreg, hr, hd, decodeCalls]
  · intro hout call hcall
    rw [← snprintfPath_fits outF ent.d_name hout]
    cases hr : env.readJPEG (snprintfPath 257 inF ent.d_name) with
    | none => simp [processEntry, hreg, hr, encodeCalls] at hcall
    | some img =>
      cases hd : downscale env.malloc img f with
      | ok out =>
        simp [processEntry, hreg, hr, hd, encodeCalls] at hcall
        rw [hcall]
      | null => simp [processEntry, hreg, hr, hd, encodeCalls] at hcall
      | fault => simp [processEntry, hreg, hr, hd, encodeCalls] at hcall

/-- C6, witness: the entry `a.jpg` of folder `in` is decoded from `in/a.jpg` and encoded to
`out/a.jpg`. -/
theorem path_mirrors_name_witness :
    decodeCalls (processEntry demoEnv "in".toList "out".toList 2 ⟨DT_REG, "a.jpg".toList⟩).1
        = ["in/a.jpg".toList]
      ∧ ∀ call ∈ encodeCalls
          (processEntry demoEnv "in".toList "out".toList 2 ⟨DT_REG, "a.jpg".toList⟩).1,
          call.1 = "out/a.jpg".toList :=
  ⟨(path_mirrors_name demoEnv "in".toList "out".toList 2 ⟨DT_REG, "a.jpg".toList⟩ rfl).1
      (by decide),
    (path_mirrors_name demoEnv "in".toList "out".toList 2 ⟨DT_REG, "a.jpg".toList⟩ rfl).2
      (by decide)⟩

/-- C8, evaluated on the code: with a stream buffer of two entries, three regular files and
two workers, the schedule `raceSchedule` ends with both workers out of the loop, every
entry returned by `readdir` to exactly one worker and decoded once, but the image decoded
from `a.jpg` is written to `out/c.jpg`, `out/c.jpg` is written twice and `out/a.jpg` never:
worker 1 claimed `c.jpg` between worker 0 reading its entry and worker 0 using it. -/
theorem race_on_claimed_entry :
    (runSchedule threeEnv "in".toList "out".toList 1 2 raceSchedule (poolInit threeFiles 2)).phases
        = [Phase.done, Phase.done]
      ∧ (runSchedule threeEnv "in".toList "out".toList 1 2 raceSchedule
          (poolInit threeFiles 2)).trace
        = [(0, Event.readdir (some ⟨DT_REG, "a.jpg".toList⟩)),
            (0, Event.readJPEG "in/a.jpg".toList),
            (1, Event.readdir (some ⟨DT_REG, "b.jpg".toList⟩)),
            (1, Event.readJPEG "in/b.jpg".toList),
            (1, Event.writeJPEG "out/b.jpg".toList ⟨[2, 0, 0], 1, 1⟩),
            (1, Event.readdir (some ⟨DT_REG, "c.jpg".toList⟩)),
            (0, Event.writeJPEG "out/c.jpg".toList ⟨[1, 0, 0], 1, 1⟩),
            (1, Event.readJPEG "in/c.jpg".toList),
            (1, Event.writeJPEG "out/c.jpg".toList ⟨[3, 0, 0], 1, 1⟩),
            (0, Event.readdir none),
            (1, Event.readdir none)] := by
  decide

end ResOpenmp
